import Mathlib

/-!
# Verification of the float-dock ordering and geometry engine

Shallow embedding of the core of `float_launcher` (files `src/app/ui.rs`,
`src/app.rs`, `src/config.rs`): the identity key, the pinned collection and
its operations, the two-column layout reconciler, the drag/press gesture
step, the drop animation commit, and the frameless-window geometry
controller.

Modelling conventions:
* Rust `String`/`PathBuf` become Lean `String` (paths via `to_string_lossy`);
  `to_ascii_lowercase` is `String.toLower` (both lowercase exactly the ASCII
  letters and leave other characters unchanged).
* `f32` coordinates become `ℚ`; the `is_finite` guards of the source are
  vacuously true in this model (noted where they occur).  A floating point
  distance comparison `dist > r` is embedded as the equivalent squared
  comparison `dist² > r²`.
* `Instant`/`Duration` become `ℚ` millisecond timestamps supplied as inputs.
* Filesystem and platform queries (`path.exists`, `resolve_shortcut`,
  `is_supported_app_path`, monitor size) are parameters of the embedded
  functions, mirroring their role as external collaborators.
-/

namespace FloatDock

/-! ## Identity key — `normalize_path_key` / `normalize_launch_key`
(ui.rs lines 1608-1621, identically in config.rs lines 178-191) -/

/-- Rust `u8::to_ascii_lowercase` per character: the letters A-Z are shifted
to a-z, every other character is unchanged. -/
def ascii_to_lower_char (c : Char) : Char :=
  if 'A' ≤ c ∧ c ≤ 'Z' then Char.ofNat (c.toNat + 32) else c

/-- `normalize_path_key` (ui.rs line 1608): `to_string_lossy().to_ascii_lowercase()`. -/
def normalize_path_key (path : String) : String :=
  ⟨path.data.map ascii_to_lower_char⟩

/-- Rust `str::trim`: drop whitespace from both ends. -/
def trim_string (s : String) : String :=
  ⟨((s.data.dropWhile Char.isWhitespace).reverse.dropWhile Char.isWhitespace).reverse⟩

/-- `normalize_launch_key` (ui.rs lines 1612-1621): join lowercased path,
trimmed args (empty when absent) and lowercased working dir (empty when
absent) with the separator character. -/
def normalize_launch_key (path : String) (args : Option String)
    (working_dir : Option String) : String :=
  let normalized_args := (args.map trim_string).getD ""
  let normalized_wd := (working_dir.map normalize_path_key).getD ""
  normalize_path_key path ++ "|" ++ normalized_args ++ "|" ++ normalized_wd

/-! ## Data model -/

/-- `PinnedApp` (state.rs lines 5-12), restricted to the identity-relevant
fields; the display name and icon fields are rendering state never consulted
by the verified operations. -/
structure PinnedApp where
  path : String
  launch_args : Option String
  working_dir : Option String
deriving DecidableEq, Repr, Inhabited

/-- The identity key of a live entry (how ui.rs computes keys of
`pinned_apps`, e.g. lines 1631-1640). -/
def PinnedApp.key (a : PinnedApp) : String :=
  normalize_launch_key a.path a.launch_args a.working_dir

/-- `TwoColumnEntry` (config.rs lines 12-19). -/
structure TwoColumnEntry where
  path : String
  args : Option String
  working_dir : Option String
deriving DecidableEq, Repr

/-- `TwoColumnEntry::key` (config.rs lines 30-36). -/
def TwoColumnEntry.key (e : TwoColumnEntry) : String :=
  normalize_launch_key e.path e.args e.working_dir

/-- `TwoColumnLayout` (config.rs lines 39-45). -/
structure TwoColumnLayout where
  left : List TwoColumnEntry
  right : List TwoColumnEntry
deriving DecidableEq, Repr

/-! ## Layout reconciler (ui.rs lines 1623-1705) -/

/-- Read the `used` marker vector at position `i` (false out of range; in the
source `used` always has exactly the collection length). -/
def usedAt (used : List Bool) (i : Nat) : Bool :=
  used.getD i false

/-- Read the key vector at position `i`. -/
def keyAt (keys : List String) (i : Nat) : String :=
  keys.getD i ""

/-- The scan inside `find_unused_index_by_key`: try positions `i`,
`i+1`, ... for `fuel` steps, returning the first unused position whose key
matches `target`. -/
def findUnusedAux (keys : List String) (target : String) (used : List Bool) :
    Nat → Nat → Option Nat
  | _, 0 => none
  | i, fuel + 1 =>
    if usedAt used i = false ∧ keyAt keys i = target then some i
    else findUnusedAux keys target used (i + 1) fuel

/-- `find_unused_index_by_key` (ui.rs lines 1681-1686): first index whose key
equals `target` and is not yet marked used. -/
def find_unused_index_by_key (keys : List String) (target : String)
    (used : List Bool) : Option Nat :=
  findUnusedAux keys target used 0 keys.length

/-- The per-column matching loop of `resolve_two_column_indices`
(ui.rs lines 1646-1658): for each persisted key in order, claim the first
unused live index with that key; unmatched keys are dropped. Returns the
updated markers and the resolved index list. -/
def matchEntries (keys : List String) (targets : List String)
    (used : List Bool) : List Bool × List Nat :=
  match targets with
  | [] => (used, [])
  | t :: ts =>
    match find_unused_index_by_key keys t used with
    | some idx =>
      let r := matchEntries keys ts (used.set idx true)
      (r.1, idx :: r.2)
    | none => matchEntries keys ts used

/-- `resolve_two_column_indices` (ui.rs lines 1623-1679): reconcile a
persisted two-column layout against the live collection, producing the left
and right column index lists. -/
def resolve_two_column_indices (apps : List PinnedApp)
    (layout : Option TwoColumnLayout) : List Nat × List Nat :=
  if apps.isEmpty then ([], [])
  else
    let keys := apps.map PinnedApp.key
    let used0 := List.replicate apps.length false
    let step :=
      match layout with
      | none => (used0, ([] : List Nat), ([] : List Nat))
      | some l =>
        let m1 := matchEntries keys (l.left.map TwoColumnEntry.key) used0
        let m2 := matchEntries keys (l.right.map TwoColumnEntry.key) m1.1
        (m2.1, m1.2, m2.2)
    let used2 := step.1
    let left0 := step.2.1
    let right := step.2.2
    if left0.isEmpty && right.isEmpty then
      ((List.range apps.length).filter (fun i => i % 2 == 0),
       (List.range apps.length).filter (fun i => i % 2 == 1))
    else
      (left0 ++ (List.range apps.length).filter (fun i => !(usedAt used2 i)),
       right)

/-! ## Reorder commit (ui.rs lines 1707-1740) -/

/-- The `seen` validation loop of `reorder_pinned_apps_by_columns`
(ui.rs lines 1721-1727): true iff every index is in range and no index
repeats. `seen` plays the role of the boolean marker vector. -/
def markSeen : List Nat → List Bool → Bool
  | [], _ => true
  | i :: rest, seen =>
    if seen.length ≤ i then false
    else if usedAt seen i then false
    else markSeen rest (seen.set i true)

/-- The extraction loop of `reorder_pinned_apps_by_columns`
(ui.rs lines 1729-1735): move each source slot named by `order` into the
output, at most once (`Option.take` semantics). -/
def takeByOrder : List Nat → List (Option PinnedApp) → List PinnedApp
  | [], _ => []
  | i :: rest, source =>
    match source.getD i none with
    | some item => item :: takeByOrder rest (source.set i none)
    | none => takeByOrder rest (source.set i none)

/-- `reorder_pinned_apps_by_columns` (ui.rs lines 1707-1740): apply the
left-then-right index order to the collection after validating that it is a
permutation of `0..len`; on validation failure the collection is unchanged.
(The dead final branch in which fewer than `total` items were extracted
leaves the source vector empty, faithfully modelled by `[]`.) -/
def reorder_pinned_apps_by_columns (apps : List PinnedApp)
    (left right : List Nat) : List PinnedApp :=
  let total := apps.length
  if total = 0 then apps
  else
    let order := left ++ right
    if order.length ≠ total then apps
    else if markSeen order (List.replicate total false) = false then apps
    else
      let reordered := takeByOrder order (apps.map some)
      if reordered.length = total then reordered else []

/-! ## Layout derivation (ui.rs lines 1742-1763) -/

/-- `two_column_entry_from_app` (ui.rs lines 1757-1763). -/
def two_column_entry_from_app (a : PinnedApp) : TwoColumnEntry :=
  ⟨a.path, a.launch_args, a.working_dir⟩

/-- `two_column_layout_from_split` (ui.rs lines 1742-1755): the first
`left_len` (clamped) entries become the persisted left column, the rest the
right column. -/
def two_column_layout_from_split (apps : List PinnedApp) (left_len : Nat) :
    TwoColumnLayout :=
  let split := min left_len apps.length
  ⟨(apps.take split).map two_column_entry_from_app,
   (apps.drop split).map two_column_entry_from_app⟩

lemma usedAt_out_of_range {used : List Bool} {i : Nat} (h : used.length ≤ i) :
    usedAt used i = false := by
  simp [usedAt, List.getD_eq_getElem?_getD, List.getElem?_eq_none h]

lemma usedAt_replicate_false (n i : Nat) : usedAt (List.replicate n false) i = false := by
  unfold usedAt
  rw [List.getD_eq_getElem?_getD, List.getElem?_replicate]
  split <;> rfl

lemma usedAt_set_self {used : List Bool} {i : Nat} (h : i < used.length) (b : Bool) :
    usedAt (used.set i b) i = b := by
  unfold usedAt
  rw [List.getD_eq_getElem?_getD, List.getElem?_set_self (by simpa using h)]
  rfl

lemma usedAt_set_ne {used : List Bool} {i j : Nat} (h : i ≠ j) (b : Bool) :
    usedAt (used.set i b) j = usedAt used j := by
  simp [usedAt, List.getD_eq_getElem?_getD, List.getElem?_set_ne h]

lemma findUnusedAux_some (keys : List String) (target : String) (used : List Bool) :
    ∀ (fuel i j : Nat), findUnusedAux keys target used i fuel = some j →
      i ≤ j ∧ j < i + fuel ∧ usedAt used j = false ∧ keyAt keys j = target := by
  intro fuel
  induction fuel with
  | zero => intro i j h; exact absurd h (by simp [findUnusedAux])
  | succ n ih =>
    intro i j h
    rw [findUnusedAux] at h
    by_cases hc : usedAt used i = false ∧ keyAt keys i = target
    · rw [if_pos hc] at h
      cases h
      exact ⟨le_refl _, by omega, hc.1, hc.2⟩
    · rw [if_neg hc] at h
      obtain ⟨h1, h2, h3, h4⟩ := ih (i + 1) j h
      exact ⟨by omega, by omega, h3, h4⟩

lemma find_unused_some {keys : List String} {target : String} {used : List Bool} {j : Nat}
    (h : find_unused_index_by_key keys target used = some j) :
    j < keys.length ∧ usedAt used j = false ∧ keyAt keys j = target := by
  obtain ⟨h1, h2, h3, h4⟩ := findUnusedAux_some keys target used keys.length 0 j h
  exact ⟨by omega, h3, h4⟩

lemma matchEntries_spec (keys : List String) :
    ∀ (ts : List String) (used : List Bool), used.length = keys.length →
      (matchEntries keys ts used).1.length = keys.length ∧
      (matchEntries keys ts used).2.Nodup ∧
      (∀ i ∈ (matchEntries keys ts used).2, i < keys.length ∧ usedAt used i = false) ∧
      (∀ i, usedAt (matchEntries keys ts used).1 i = true ↔
            (usedAt used i = true ∨ i ∈ (matchEntries keys ts used).2)) := by
  intro ts
  induction ts with
  | nil =>
    intro used h
    simp [matchEntries, h]
  | cons t ts ih =>
    intro used h
    cases hf : find_unused_index_by_key keys t used with
    | none =>
      simpa [matchEntries, hf] using ih used h
    | some idx =>
      obtain ⟨hlt, hunused, _⟩ := find_unused_some hf
      have hlt' : idx < used.length := by omega
      have hlen : (used.set idx true).length = keys.length := by simp [h]
      obtain ⟨ih1, ih2, ih3, ih4⟩ := ih (used.set idx true) hlen
      have heq : matchEntries keys (t :: ts) used =
          ((matchEntries keys ts (used.set idx true)).1,
           idx :: (matchEntries keys ts (used.set idx true)).2) := by
        simp [matchEntries, hf]
      rw [heq]
      have hnotmem : idx ∉ (matchEntries keys ts (used.set idx true)).2 := by
        intro hmem
        have := (ih3 idx hmem).2
        rw [usedAt_set_self hlt' true] at this
        simp at this
      refine ⟨ih1, ⟨List.nodup_cons.mpr ⟨hnotmem, ih2⟩, ?_, ?_⟩⟩
      · intro i hi
        rcases List.mem_cons.mp hi with rfl | hi'
        · exact ⟨hlt, hunused⟩
        · have hne : idx ≠ i := by
            rintro rfl
            exact hnotmem hi'
          obtain ⟨h5, h6⟩ := ih3 i hi'
          rw [usedAt_set_ne hne true] at h6
          exact ⟨h5, h6⟩
      · intro i
        by_cases hne : i = idx
        · subst hne
          constructor
          · intro _
            exact Or.inr (List.mem_cons_self _ _)
          · intro _
            rw [ih4 i]
            exact Or.inl (by rw [usedAt_set_self hlt' true])
        · have hne' : idx ≠ i := fun hh => hne hh.symm
          rw [ih4 i, usedAt_set_ne hne' true]
          constructor
          · rintro (hu | hm)
            · exact Or.inl hu
            · exact Or.inr (List.mem_cons_of_mem _ hm)
          · rintro (hu | hm)
            · exact Or.inl hu
            · rcases List.mem_cons.mp hm with rfl | hm'
              · exact absurd rfl hne
              · exact Or.inr hm'

lemma resolve_none_eq (apps : List PinnedApp) (h : apps ≠ []) :
    resolve_two_column_indices apps none =
      ((List.range apps.length).filter (fun i => i % 2 == 0),
       (List.range apps.length).filter (fun i => i % 2 == 1)) := by
  cases apps with
  | nil => exact absurd rfl h
  | cons a l => rfl

lemma resolve_some_eq (apps : List PinnedApp) (layout : TwoColumnLayout) (h : apps ≠ []) :
    resolve_two_column_indices apps (some layout) =
      (let keys := apps.map PinnedApp.key
       let m1 := matchEntries keys (layout.left.map TwoColumnEntry.key)
         (List.replicate apps.length false)
       let m2 := matchEntries keys (layout.right.map TwoColumnEntry.key) m1.1
       if m1.2.isEmpty && m2.2.isEmpty then
         ((List.range apps.length).filter (fun i => i % 2 == 0),
          (List.range apps.length).filter (fun i => i % 2 == 1))
       else
         (m1.2 ++ (List.range apps.length).filter (fun i => !(usedAt m2.1 i)), m2.2)) := by
  cases apps with
  | nil => exact absurd rfl h
  | cons a l => rfl

lemma fallback_perm (n : Nat) :
    ((List.range n).filter (fun i => i % 2 == 0) ++
     (List.range n).filter (fun i => i % 2 == 1)).Perm (List.range n) := by
  have h1 : (List.range n).filter (fun i => i % 2 == 1) =
      (List.range n).filter (fun i => !(i % 2 == 0)) := by
    apply List.filter_congr
    intro i _
    rcases Nat.mod_two_eq_zero_or_one i with h | h <;> simp [h]
  rw [h1]
  exact List.filter_append_perm _ _

/-- Core coverage fact: the two resolved columns together form a permutation
of the live index range. -/
lemma resolve_perm_aux (apps : List PinnedApp)
    (layout : Option TwoColumnLayout) :
    ((resolve_two_column_indices apps layout).1 ++
     (resolve_two_column_indices apps layout).2).Perm (List.range apps.length) := by
  by_cases he : apps = []
  · subst he
    simp [resolve_two_column_indices]
  cases layout with
  | none =>
    rw [resolve_none_eq apps he]
    exact fallback_perm apps.length
  | some l =>
    rw [resolve_some_eq apps l he]
    simp only
    set keys := apps.map PinnedApp.key with hkeys
    set n := apps.length with hn
    have hkl : keys.length = n := by simp [hkeys, hn]
    set used0 := List.replicate n false with hu0
    have hu0l : used0.length = keys.length := by simp [hu0, hkl]
    set m1 := matchEntries keys (l.left.map TwoColumnEntry.key) used0 with hm1
    obtain ⟨s11, s12, s13, s14⟩ := matchEntries_spec keys (l.left.map TwoColumnEntry.key) used0 hu0l
    set m2 := matchEntries keys (l.right.map TwoColumnEntry.key) m1.1 with hm2
    obtain ⟨s21, s22, s23, s24⟩ := matchEntries_spec keys (l.right.map TwoColumnEntry.key) m1.1 (by rw [s11])
    rw [← hm1] at s11 s12 s13 s14
    rw [← hm2] at s21 s22 s23 s24
    -- membership characterizations
    have memL : ∀ i, usedAt m1.1 i = true ↔ i ∈ m1.2 := by
      intro i
      rw [s14 i, usedAt_replicate_false]
      simp
    have memLR : ∀ i, usedAt m2.1 i = true ↔ (i ∈ m1.2 ∨ i ∈ m2.2) := by
      intro i
      rw [s24 i, memL]
    have hLn : ∀ i ∈ m1.2, i < n := fun i hi => hkl ▸ (s13 i hi).1
    have hRn : ∀ i ∈ m2.2, i < n := fun i hi => hkl ▸ (s23 i hi).1
    have hLR : ∀ i ∈ m2.2, i ∉ m1.2 := by
      intro i hi hmem
      have := (s23 i hi).2
      rw [(memL i).mpr hmem] at this
      simp at this
    by_cases hb : m1.2.isEmpty && m2.2.isEmpty
    · rw [if_pos hb]
      exact fallback_perm n
    · rw [if_neg hb]
      simp only
      set U := (List.range n).filter (fun i => !(usedAt m2.1 i)) with hU
      have hUmem : ∀ i, i ∈ U ↔ (i < n ∧ usedAt m2.1 i = false) := by
        intro i
        rw [hU, List.mem_filter, List.mem_range]
        simp
      -- nodup of the combined list
      have dU : U.Nodup := (List.nodup_range n).filter _
      have dG : ((m1.2 ++ U) ++ m2.2).Nodup := by
        rw [List.nodup_append]
        refine ⟨?_, s22, ?_⟩
        · rw [List.nodup_append]
          refine ⟨s12, dU, ?_⟩
          intro i hiL hiU
          have := ((hUmem i).mp hiU).2
          rw [(memLR i).mpr (Or.inl hiL)] at this
          exact absurd this (by simp)
        · intro i hi hiR
          rcases List.mem_append.mp hi with hiL | hiU
          · exact hLR i hiR hiL
          · have := ((hUmem i).mp hiU).2
            rw [(memLR i).mpr (Or.inr hiR)] at this
            exact absurd this (by simp)
      have dR : (List.range n).Nodup := List.nodup_range n
      rw [List.perm_ext_iff_of_nodup dG dR]
      intro i
      rw [List.mem_range]
      constructor
      · intro hi
        rcases List.mem_append.mp hi with hi' | hiR
        · rcases List.mem_append.mp hi' with hiL | hiU
          · exact hLn i hiL
          · exact ((hUmem i).mp hiU).1
        · exact hRn i hiR
      · intro hi
        by_cases hused : usedAt m2.1 i = true
        · rcases (memLR i).mp hused with hiL | hiR
          · exact List.mem_append.mpr (Or.inl (List.mem_append.mpr (Or.inl hiL)))
          · exact List.mem_append.mpr (Or.inr hiR)
        · have : i ∈ U := (hUmem i).mpr ⟨hi, by simpa using hused⟩
          exact List.mem_append.mpr (Or.inl (List.mem_append.mpr (Or.inr this)))


/-- Claim C1: for every collection of pinned entries and every optional
persisted two-column layout (including none), `resolve_two_column_indices`
returns index lists (left, right) whose concatenation is a permutation of
`0..len`: every live index appears exactly once, none repeated, none
omitted; in particular `|left| + |right|` equals the collection length. -/
theorem resolve_two_column_indices_covers (apps : List PinnedApp)
    (layout : Option TwoColumnLayout) :
    ((resolve_two_column_indices apps layout).1 ++
     (resolve_two_column_indices apps layout).2).Perm (List.range apps.length) ∧
    (resolve_two_column_indices apps layout).1.length +
      (resolve_two_column_indices apps layout).2.length = apps.length := by
  refine ⟨resolve_perm_aux apps layout, ?_⟩
  have h := (resolve_perm_aux apps layout).length_eq
  simpa using h

lemma markSeen_iff : ∀ (order : List Nat) (seen : List Bool),
    markSeen order seen = true ↔
      (order.Nodup ∧ ∀ i ∈ order, i < seen.length ∧ usedAt seen i = false) := by
  intro order
  induction order with
  | nil => intro seen; simp [markSeen]
  | cons i rest ih =>
    intro seen
    rw [markSeen]
    by_cases h1 : seen.length ≤ i
    · rw [if_pos h1]
      constructor
      · intro h
        simp at h
      · rintro ⟨-, hall⟩
        have hi := (hall i (List.mem_cons_self _ _)).1
        exact absurd hi (by omega)
    · rw [if_neg h1]
      have hilen : i < seen.length := by omega
      by_cases h2 : usedAt seen i
      · rw [if_pos h2]
        constructor
        · intro h
          simp at h
        · rintro ⟨-, hall⟩
          have hu := (hall i (List.mem_cons_self _ _)).2
          rw [h2] at hu
          simp at hu
      · rw [if_neg h2]
        rw [ih (seen.set i true)]
        constructor
        · rintro ⟨hnd, hall⟩
          have hnotmem : i ∉ rest := by
            intro hmem
            have hu := (hall i hmem).2
            rw [usedAt_set_self hilen true] at hu
            simp at hu
          refine ⟨List.nodup_cons.mpr ⟨hnotmem, hnd⟩, ?_⟩
          intro j hj
          rcases List.mem_cons.mp hj with rfl | hj'
          · exact ⟨hilen, by simpa using h2⟩
          · obtain ⟨hl, hu⟩ := hall j hj'
            have hne : i ≠ j := by
              rintro rfl
              exact hnotmem hj'
            rw [List.length_set] at hl
            rw [usedAt_set_ne hne true] at hu
            exact ⟨hl, hu⟩
        · rintro ⟨hnd, hall⟩
          obtain ⟨hnotmem, hnd'⟩ := List.nodup_cons.mp hnd
          refine ⟨hnd', ?_⟩
          intro j hj
          have hne : i ≠ j := by
            rintro rfl
            exact hnotmem hj
          obtain ⟨hl, hu⟩ := hall j (List.mem_cons_of_mem _ hj)
          rw [List.length_set, usedAt_set_ne hne true]
          exact ⟨hl, hu⟩

lemma markSeen_true_iff_perm {order : List Nat} {n : Nat} (hlen : order.length = n) :
    markSeen order (List.replicate n false) = true ↔ order.Perm (List.range n) := by
  rw [markSeen_iff]
  constructor
  · rintro ⟨hnd, hall⟩
    have hsub : order ⊆ List.range n := by
      intro i hi
      rw [List.mem_range]
      have := (hall i hi).1
      simpa using this
    have hsp := hnd.subperm hsub
    exact hsp.perm_of_length_le (by simp [hlen])
  · intro hperm
    have hnd : order.Nodup := hperm.nodup_iff.mpr (List.nodup_range n)
    refine ⟨hnd, ?_⟩
    intro i hi
    have hr : i ∈ List.range n := hperm.mem_iff.mp hi
    rw [List.mem_range] at hr
    exact ⟨by simpa using hr, usedAt_replicate_false n i⟩

lemma takeByOrder_map (f : Nat → PinnedApp) :
    ∀ (order : List Nat) (source : List (Option PinnedApp)),
      order.Nodup → (∀ i ∈ order, source.getD i none = some (f i)) →
      takeByOrder order source = order.map f := by
  intro order
  induction order with
  | nil => intro source _ _; rfl
  | cons i rest ih =>
    intro source hnd hval
    obtain ⟨hnotmem, hnd'⟩ := List.nodup_cons.mp hnd
    have hi := hval i (List.mem_cons_self _ _)
    rw [takeByOrder, hi]
    show f i :: takeByOrder rest (source.set i none) = List.map f (i :: rest)
    rw [List.map_cons]
    congr 1
    apply ih (source.set i none) hnd'
    intro j hj
    have hne : i ≠ j := by
      rintro rfl
      exact hnotmem hj
    rw [List.getD_eq_getElem?_getD, List.getElem?_set_ne hne,
      ← List.getD_eq_getElem?_getD]
    exact hval j (List.mem_cons_of_mem _ hj)

lemma map_some_getD {apps : List PinnedApp} {i : Nat} (h : i < apps.length) :
    (apps.map some).getD i none = some (apps.getD i default) := by
  rw [List.getD_eq_getElem?_getD, List.getElem?_map, List.getD_eq_getElem?_getD,
    List.getElem?_eq_getElem h]
  rfl

/-- When the combined order is a permutation, the reorder realizes exactly
that indexing of the original collection. -/
lemma reorder_eq_map_of_perm (apps : List PinnedApp) (left right : List Nat)
    (hperm : (left ++ right).Perm (List.range apps.length)) :
    reorder_pinned_apps_by_columns apps left right =
      (left ++ right).map (fun i => apps.getD i default) := by
    by_cases h0 : apps.length = 0
    · have happs : apps = [] := List.length_eq_zero.mp h0
      have horder : left ++ right = [] := by
        have hl := hperm.length_eq
        rw [List.length_range, h0] at hl
        exact List.length_eq_zero.mp hl
      rw [happs]
      have hred : reorder_pinned_apps_by_columns [] left right = [] := rfl
      rw [hred, horder]
      rfl
    · have hlen : (left ++ right).length = apps.length := by
        rw [hperm.length_eq, List.length_range]
      have hmark : markSeen (left ++ right) (List.replicate apps.length false) = true :=
        (markSeen_true_iff_perm hlen).mpr hperm
      have hnd : (left ++ right).Nodup := hperm.nodup_iff.mpr (List.nodup_range _)
      have htake : takeByOrder (left ++ right) (apps.map some) =
          (left ++ right).map (fun i => apps.getD i default) := by
        apply takeByOrder_map _ _ _ hnd
        intro i hi
        have hr : i ∈ List.range apps.length := hperm.mem_iff.mp hi
        rw [List.mem_range] at hr
        exact map_some_getD hr
      simp only [reorder_pinned_apps_by_columns]
      rw [if_neg h0, if_neg (by omega), if_neg (by simp [hmark]), htake,
        if_pos (by simpa using hlen)]

/-- When the combined order is not a permutation, the collection is
unchanged. -/
lemma reorder_unchanged_of_not_perm (apps : List PinnedApp) (left right : List Nat)
    (hnperm : ¬ (left ++ right).Perm (List.range apps.length)) :
    reorder_pinned_apps_by_columns apps left right = apps := by
    simp only [reorder_pinned_apps_by_columns]
    by_cases h0 : apps.length = 0
    · rw [if_pos h0]
    · rw [if_neg h0]
      by_cases hlen : (left ++ right).length ≠ apps.length
      · rw [if_pos hlen]
      · push_neg at hlen
        rw [if_neg (by omega)]
        have hmark : markSeen (left ++ right) (List.replicate apps.length false) = false := by
          rcases Bool.eq_false_or_eq_true
              (markSeen (left ++ right) (List.replicate apps.length false)) with h | h
          · exact absurd ((markSeen_true_iff_perm hlen).mp h) hnperm
          · exact h
        rw [if_pos hmark]

/-- Claim C2: when `left ++ right` is a permutation of `0..len`,
`reorder_pinned_apps_by_columns` yields exactly the original collection
indexed by that permutation (left entries first, in order, then right
entries); for every non-permutation (wrong total length, duplicated index,
or out-of-range index) the collection is left completely unchanged. -/
theorem reorder_pinned_apps_by_columns_spec (apps : List PinnedApp)
    (left right : List Nat) :
    ((left ++ right).Perm (List.range apps.length) →
      reorder_pinned_apps_by_columns apps left right =
        (left ++ right).map (fun i => apps.getD i default)) ∧
    (¬ (left ++ right).Perm (List.range apps.length) →
      reorder_pinned_apps_by_columns apps left right = apps) :=
  ⟨reorder_eq_map_of_perm apps left right, reorder_unchanged_of_not_perm apps left right⟩

/-- Witness for C2 at a concrete permutation. -/
theorem reorder_pinned_apps_by_columns_spec_witness :
    reorder_pinned_apps_by_columns
        [⟨"a", none, none⟩, ⟨"b", none, none⟩] [1] [0] =
      ([1] ++ [0]).map
        (fun i => List.getD [(⟨"a", none, none⟩ : PinnedApp), ⟨"b", none, none⟩] i default) :=
  (reorder_pinned_apps_by_columns_spec [⟨"a", none, none⟩, ⟨"b", none, none⟩] [1] [0]).1
    (by decide)

/-- `AddPinResult` (ui.rs lines 1588-1596). -/
inductive AddPinResult
  | Added
  | Duplicate
  | Unsupported
  | ShortcutUnresolved
  | Missing
  | LimitReached
deriving DecidableEq, Repr

/-- `MAX_PINNED_APPS` (app.rs line 21). -/
def MAX_PINNED_APPS : Nat := 20

/-- The result of `resolve_shortcut` (system.rs) as consumed by
`try_add_pin`: target path, whether that target exists on disk, optional
arguments and working directory. -/
structure ShortcutInfo where
  target_path : String
  target_exists : Bool
  arguments : Option String
  working_dir : Option String

/-- The filesystem facts `try_add_pin` consults, supplied as parameters
(external collaborators): whether the dropped path exists, whether its
extension is `lnk`, the shortcut resolution outcome, the file stem of the
source path, and the `is_supported_app_path` predicate. -/
structure FsEnv where
  path_exists : Bool
  is_shortcut : Bool
  shortcut : Option ShortcutInfo
  source_name : Option String
  supported : String → Bool

/-- The shortcut-resolution block of `try_add_pin` (ui.rs lines 173-195):
the resolved (path, display name, args, working dir), or `none` for the
`ShortcutUnresolved` early return. -/
def resolve_candidate (env : FsEnv) (path : String) :
    Option (String × Option String × Option String × Option String) :=
  if env.is_shortcut then
    match env.shortcut with
    | some sc =>
      if sc.target_exists then
        some (sc.target_path, env.source_name, sc.arguments, sc.working_dir)
      else none
    | none => none
  else some (path, none, none, none)

/-- `try_add_pin` (ui.rs lines 165-224). The display name is rendering
state not carried by the `PinnedApp` model; the appended entry carries the
resolved path, args and working dir exactly as `PinnedApp::new` stores
them. -/
def try_add_pin (env : FsEnv) (path : String) (apps : List PinnedApp) :
    AddPinResult × List PinnedApp :=
  if MAX_PINNED_APPS ≤ apps.length then (.LimitReached, apps)
  else if env.path_exists = false then (.Missing, apps)
  else
    match resolve_candidate env path with
    | none => (.ShortcutUnresolved, apps)
    | some (rp, _, la, wd) =>
      if env.supported rp = false then (.Unsupported, apps)
      else if apps.any (fun a => a.key == normalize_launch_key rp la wd) then
        (.Duplicate, apps)
      else (.Added, apps ++ [⟨rp, la, wd⟩])

/-- Claim C3: `try_add_pin` on a collection already holding 20 entries
returns `LimitReached` and leaves the collection unchanged; below the
ceiling, a resolved candidate whose identity key equals the key of an entry
already present returns `Duplicate` and leaves the collection unchanged,
and when no rejection applies the entry is appended with `Added`; every
result other than `Added` leaves the collection unchanged. -/
theorem try_add_pin_spec (env : FsEnv) (path : String) (apps : List PinnedApp) :
    (apps.length = 20 → try_add_pin env path apps = (.LimitReached, apps)) ∧
    (∀ rp dn la wd, apps.length < 20 → env.path_exists = true →
      resolve_candidate env path = some (rp, dn, la, wd) →
      env.supported rp = true →
      ((∃ a ∈ apps, a.key = normalize_launch_key rp la wd) →
        try_add_pin env path apps = (.Duplicate, apps)) ∧
      ((¬ ∃ a ∈ apps, a.key = normalize_launch_key rp la wd) →
        try_add_pin env path apps = (.Added, apps ++ [⟨rp, la, wd⟩]))) ∧
    (∀ r apps', try_add_pin env path apps = (r, apps') → r ≠ .Added → apps' = apps) := by
  refine ⟨?_, ?_, ?_⟩
  · intro h20
    rw [try_add_pin, if_pos (by rw [h20]; decide)]
  · intro rp dn la wd hlt hp hres hsup
    have hbranch : try_add_pin env path apps =
        (if apps.any (fun a => a.key == normalize_launch_key rp la wd) then
          (.Duplicate, apps)
         else (.Added, apps ++ [⟨rp, la, wd⟩])) := by
      rw [try_add_pin, if_neg (by simp only [MAX_PINNED_APPS]; omega),
        if_neg (by simp [hp]), hres]
      show (if env.supported rp = false then
              ((AddPinResult.Unsupported, apps) : AddPinResult × List PinnedApp)
            else if apps.any (fun a => a.key == normalize_launch_key rp la wd) then
              (.Duplicate, apps)
            else (.Added, apps ++ [⟨rp, la, wd⟩])) = _
      rw [if_neg (by simp [hsup])]
    have hany : (apps.any (fun a => a.key == normalize_launch_key rp la wd) = true) ↔
        (∃ a ∈ apps, a.key = normalize_launch_key rp la wd) := by
      rw [List.any_eq_true]
      constructor
      · rintro ⟨a, ha, hk⟩
        exact ⟨a, ha, by simpa using hk⟩
      · rintro ⟨a, ha, hk⟩
        exact ⟨a, ha, by simpa using hk⟩
    constructor
    · intro hex
      rw [hbranch, if_pos (hany.mpr hex)]
    · intro hnex
      rw [hbranch, if_neg (fun hc => hnex (hany.mp hc))]
  · intro r apps' heq hr
    rw [try_add_pin] at heq
    split at heq
    · cases heq
      rfl
    · split at heq
      · cases heq
        rfl
      · split at heq
        · cases heq
          rfl
        · split at heq
          · cases heq
            rfl
          · split at heq
            · cases heq
              rfl
            · cases heq
              exact absurd rfl hr

/-- Witness for C3: a supported, existing, non-duplicate path is appended. -/
theorem try_add_pin_spec_witness :
    try_add_pin ⟨true, false, none, none, fun _ => true⟩ "c:\\a.exe" [] =
      (.Added, [] ++ [⟨"c:\\a.exe", none, none⟩]) :=
  ((try_add_pin_spec ⟨true, false, none, none, fun _ => true⟩ "c:\\a.exe" []).2.1
      "c:\\a.exe" none none none (by decide) rfl rfl rfl).2 (by simp)

/-- `DropAnim` (state.rs lines 44-50), identity-relevant fields: the held
entry (owned outside the collection) and the target insertion index. The
timing and y-coordinate fields feed only the visual offset; the clamped
progress value they produce is the input of `update_drop_animation`. -/
structure DropAnimM where
  item : PinnedApp
  insert_at : Nat
deriving DecidableEq, Repr

/-- `update_drop_animation` (ui.rs lines 111-127), acting on
(`pinned_apps`, `drop_anim`, `selected_app`). `t` is the elapsed/duration
progress already clamped to `[0, 1]` (line 115); real time is an external
input. When `t ≥ 1` the held entry is inserted at `insert_at` re-clamped to
the current collection length and the animation session ends. -/
def update_drop_animation (pinned_apps : List PinnedApp)
    (drop_anim : Option DropAnimM) (selected_app : Option Nat) (t : ℚ) :
    List PinnedApp × Option DropAnimM × Option Nat :=
  match drop_anim with
  | none => (pinned_apps, none, selected_app)
  | some anim =>
    if 1 ≤ t then
      (pinned_apps.insertIdx (min anim.insert_at pinned_apps.length) anim.item,
       none, some (min anim.insert_at pinned_apps.length))
    else (pinned_apps, some anim, selected_app)

/-- The commit-on-release step of `draw_pinned_list` (ui.rs lines 959-989):
when no drop animation runs, a drag is active and the pointer was released,
the dragged entry is removed from the collection and handed to a fresh drop
animation with the slot clamped to the shrunken length; both drag fields
are always cleared (tuple of `Option::take`). Returns
(`pinned_apps`, `dragging_app`, `drag_target`, `drop_anim`). -/
def commit_drag_release (pinned_apps : List PinnedApp)
    (dragging_app drag_target : Option Nat) (drop_anim : Option DropAnimM)
    (released : Bool) :
    List PinnedApp × Option Nat × Option Nat × Option DropAnimM :=
  if drop_anim.isNone && dragging_app.isSome && released then
    match dragging_app, drag_target with
    | some fromIdx, some slot =>
      if fromIdx < pinned_apps.length then
        (pinned_apps.eraseIdx fromIdx, none, none,
         some ⟨pinned_apps.getD fromIdx default,
               min slot (pinned_apps.eraseIdx fromIdx).length⟩)
      else (pinned_apps, none, none, drop_anim)
    | _, _ => (pinned_apps, none, none, drop_anim)
  else (pinned_apps, dragging_app, drag_target, drop_anim)

/-- Claim C4: when the drop-animation progress `t` reaches 1, the held
entry is inserted into the collection exactly once at
`min(insert_at, current length)` and the animation session is cleared; a
remove-then-reinsert cycle with no interleaved removal leaves the
collection length unchanged net, and when the collection shrank below the
original insertion index the entry is still inserted, clamped to the new
end. -/
theorem drop_animation_commit_spec (pinned_apps : List PinnedApp)
    (anim : DropAnimM) (selected_app : Option Nat) (t : ℚ) (ht : 1 ≤ t) :
    (update_drop_animation pinned_apps (some anim) selected_app t =
      (pinned_apps.insertIdx (min anim.insert_at pinned_apps.length) anim.item,
       none, some (min anim.insert_at pinned_apps.length))) ∧
    ((update_drop_animation pinned_apps (some anim) selected_app t).1.length =
      pinned_apps.length + 1) ∧
    (pinned_apps.length ≤ anim.insert_at →
      (update_drop_animation pinned_apps (some anim) selected_app t).1 =
        pinned_apps ++ [anim.item]) ∧
    (∀ fromIdx slot, fromIdx < pinned_apps.length →
      (update_drop_animation
          (commit_drag_release pinned_apps (some fromIdx) (some slot) none true).1
          (commit_drag_release pinned_apps (some fromIdx) (some slot) none true).2.2.2
          selected_app t).1.length = pinned_apps.length) := by
  have hred : update_drop_animation pinned_apps (some anim) selected_app t =
      (pinned_apps.insertIdx (min anim.insert_at pinned_apps.length) anim.item,
       none, some (min anim.insert_at pinned_apps.length)) := by
    rw [update_drop_animation]
    rw [if_pos ht]
  refine ⟨hred, ?_, ?_, ?_⟩
  · rw [hred]
    exact List.length_insertIdx _ _ (min_le_right _ _)
  · intro hle
    rw [hred]
    simp only
    rw [min_eq_right hle, List.insertIdx_length_self]
  · intro fromIdx slot hlt
    have hc : commit_drag_release pinned_apps (some fromIdx) (some slot) none true =
        (pinned_apps.eraseIdx fromIdx, none, none,
         some ⟨pinned_apps.getD fromIdx default,
               min slot (pinned_apps.eraseIdx fromIdx).length⟩) := by
      rw [commit_drag_release, if_pos (by simp)]
      rw [if_pos hlt]
    rw [hc]
    have hredc : update_drop_animation (pinned_apps.eraseIdx fromIdx)
        (some ⟨pinned_apps.getD fromIdx default,
               min slot (pinned_apps.eraseIdx fromIdx).length⟩) selected_app t =
        ((pinned_apps.eraseIdx fromIdx).insertIdx
          (min (min slot (pinned_apps.eraseIdx fromIdx).length)
            (pinned_apps.eraseIdx fromIdx).length)
          (pinned_apps.getD fromIdx default),
         none,
         some (min (min slot (pinned_apps.eraseIdx fromIdx).length)
            (pinned_apps.eraseIdx fromIdx).length)) := by
      rw [update_drop_animation]
      rw [if_pos ht]
    rw [hredc]
    simp only
    rw [List.length_insertIdx _ _ (min_le_right _ _), List.length_eraseIdx_of_lt hlt]
    omega

/-- Witness for C4 at a concrete oversized insertion index. -/
theorem drop_animation_commit_spec_witness :
    update_drop_animation [(⟨"a", none, none⟩ : PinnedApp)]
        (some ⟨⟨"b", none, none⟩, 5⟩) none 1 =
      ([(⟨"a", none, none⟩ : PinnedApp)].insertIdx
          (min 5 [(⟨"a", none, none⟩ : PinnedApp)].length) ⟨"b", none, none⟩,
       none, some (min 5 [(⟨"a", none, none⟩ : PinnedApp)].length)) :=
  (drop_animation_commit_spec [⟨"a", none, none⟩] ⟨⟨"b", none, none⟩, 5⟩ none 1
    (by norm_num)).1

lemma keyAt_eq_getElem {keys : List String} {k : Nat} (h : k < keys.length) :
    keyAt keys k = keys[k] := by
  simp [keyAt, List.getD_eq_getElem?_getD, List.getElem?_eq_getElem h]

lemma findUnusedAux_eq_some (keys : List String) (target : String) (used : List Bool) :
    ∀ (fuel i j : Nat), i ≤ j → j < i + fuel →
      usedAt used j = false → keyAt keys j = target →
      (∀ k, i ≤ k → k < j → ¬(usedAt used k = false ∧ keyAt keys k = target)) →
      findUnusedAux keys target used i fuel = some j := by
  intro fuel
  induction fuel with
  | zero =>
    intro i j h1 h2 _ _ _
    omega
  | succ n ih =>
    intro i j h1 h2 h3 h4 hfirst
    rcases Nat.eq_or_lt_of_le h1 with rfl | hlt
    · rw [findUnusedAux, if_pos ⟨h3, h4⟩]
    · rw [findUnusedAux, if_neg (hfirst i (le_refl i) hlt)]
      exact ih (i + 1) j hlt (by omega) h3 h4 (fun k hk1 hk2 => hfirst k (by omega) hk2)

lemma find_unused_self {keys : List String} {used : List Bool} (hnd : keys.Nodup)
    {i : Nat} (hi : i < keys.length) (hu : usedAt used i = false) :
    find_unused_index_by_key keys (keyAt keys i) used = some i := by
  apply findUnusedAux_eq_some keys (keyAt keys i) used keys.length 0 i (Nat.zero_le i)
    (by omega) hu rfl
  intro k _ hki
  rintro ⟨-, hkey⟩
  have hklt : k < keys.length := by omega
  rw [keyAt_eq_getElem hklt, keyAt_eq_getElem hi, hnd.getElem_inj_iff] at hkey
  omega

lemma matchEntries_roundtrip {keys : List String} (hnd : keys.Nodup) :
    ∀ (is : List Nat) (used : List Bool), used.length = keys.length →
      (∀ i ∈ is, i < keys.length ∧ usedAt used i = false) → is.Nodup →
      (matchEntries keys (is.map (fun i => keyAt keys i)) used).2 = is := by
  intro is
  induction is with
  | nil =>
    intro used _ _ _
    rfl
  | cons i rest ih =>
    intro used hlen hall hnd2
    obtain ⟨hnotmem, hnd'⟩ := List.nodup_cons.mp hnd2
    obtain ⟨hi, hu⟩ := hall i (List.mem_cons_self _ _)
    have hfind : find_unused_index_by_key keys (keyAt keys i) used = some i :=
      find_unused_self hnd hi hu
    have heq : matchEntries keys ((i :: rest).map (fun k => keyAt keys k)) used =
        ((matchEntries keys (rest.map (fun k => keyAt keys k)) (used.set i true)).1,
         i :: (matchEntries keys (rest.map (fun k => keyAt keys k)) (used.set i true)).2) := by
      simp [matchEntries, hfind]
    rw [heq]
    simp only
    congr 1
    apply ih (used.set i true) (by simp [hlen]) _ hnd'
    intro j hj
    have hne : i ≠ j := by
      rintro rfl
      exact hnotmem hj
    obtain ⟨h1, h2⟩ := hall j (List.mem_cons_of_mem _ hj)
    rw [usedAt_set_ne hne true]
    exact ⟨h1, h2⟩

lemma key_getD {apps : List PinnedApp} {i : Nat} (h : i < apps.length) :
    (apps.getD i default).key = keyAt (apps.map PinnedApp.key) i := by
  have hm : i < (apps.map PinnedApp.key).length := by simpa using h
  rw [keyAt_eq_getElem hm, List.getElem_map]
  rw [List.getD_eq_getElem?_getD, List.getElem?_eq_getElem h]
  rfl

/-- Claim C5: reconciliation is idempotent through a round trip — for every
collection satisfying the no-duplicate-keys invariant and every persisted
layout, computing the (left, right) index split, converting it back into a
persisted layout (deriving the layout from the reordered collection), and
reconciling again against the collection yields the same (left, right)
index split. -/
theorem reconcile_roundtrip_idempotent (apps : List PinnedApp)
    (layout : Option TwoColumnLayout) (hnd : (apps.map PinnedApp.key).Nodup) :
    resolve_two_column_indices apps
      (some (two_column_layout_from_split
        (reorder_pinned_apps_by_columns apps
          (resolve_two_column_indices apps layout).1
          (resolve_two_column_indices apps layout).2)
        (resolve_two_column_indices apps layout).1.length)) =
    resolve_two_column_indices apps layout := by
  by_cases he : apps = []
  · subst he
    rfl
  set lr := resolve_two_column_indices apps layout with hlr
  set l := lr.1 with hldef
  set r := lr.2 with hrdef
  have hperm : (l ++ r).Perm (List.range apps.length) := resolve_perm_aux apps layout
  have hlen : (l ++ r).length = apps.length := by
    rw [hperm.length_eq, List.length_range]
  have hndlr : (l ++ r).Nodup := hperm.nodup_iff.mpr (List.nodup_range _)
  obtain ⟨hndl, hndr, hdisj⟩ := List.nodup_append.mp hndlr
  have hmeml : ∀ i ∈ l, i < apps.length := by
    intro i hi
    have := hperm.mem_iff.mp (List.mem_append.mpr (Or.inl hi))
    simpa using this
  have hmemr : ∀ i ∈ r, i < apps.length := by
    intro i hi
    have := hperm.mem_iff.mp (List.mem_append.mpr (Or.inr hi))
    simpa using this
  have hreorder : reorder_pinned_apps_by_columns apps l r =
      (l ++ r).map (fun i => apps.getD i default) :=
    reorder_eq_map_of_perm apps l r hperm
  set f : Nat → PinnedApp := fun i => apps.getD i default with hf
  have hsplit : min l.length ((l ++ r).map f).length = l.length := by
    rw [List.length_map]
    exact min_eq_left (by simp only [List.length_append]; omega)
  have hlayout : two_column_layout_from_split
      (reorder_pinned_apps_by_columns apps l r) l.length =
      ⟨(l.map f).map two_column_entry_from_app,
       (r.map f).map two_column_entry_from_app⟩ := by
    rw [hreorder]
    simp only [two_column_layout_from_split, hsplit]
    rw [← List.map_take, ← List.map_drop, List.take_left, List.drop_left]
  have hkeyscomp : ∀ (is : List Nat), (∀ i ∈ is, i < apps.length) →
      ((is.map f).map two_column_entry_from_app).map TwoColumnEntry.key =
        is.map (fun i => keyAt (apps.map PinnedApp.key) i) := by
    intro is his
    rw [List.map_map, List.map_map]
    apply List.map_congr_left
    intro i hi
    have hilt : i < apps.length := his i hi
    show (two_column_entry_from_app (f i)).key = keyAt (apps.map PinnedApp.key) i
    have hek : (two_column_entry_from_app (f i)).key = (f i).key := rfl
    rw [hek, hf]
    exact key_getD hilt
  rw [hlayout, resolve_some_eq apps _ he]
  simp only
  set keys := apps.map PinnedApp.key with hkeys
  have hkl : keys.length = apps.length := by simp [hkeys]
  set used0 := List.replicate apps.length false with hu0
  have hu0l : used0.length = keys.length := by simp [hu0, hkl]
  have hlk : (((l.map f).map two_column_entry_from_app).map TwoColumnEntry.key) =
      l.map (fun i => keyAt keys i) := hkeyscomp l hmeml
  have hrk : (((r.map f).map two_column_entry_from_app).map TwoColumnEntry.key) =
      r.map (fun i => keyAt keys i) := hkeyscomp r hmemr
  rw [hlk, hrk]
  set m1 := matchEntries keys (l.map (fun i => keyAt keys i)) used0 with hm1
  obtain ⟨s11, _, _, s14⟩ := matchEntries_spec keys (l.map (fun i => keyAt keys i)) used0 hu0l
  rw [← hm1] at s11 s14
  have hm1snd : m1.2 = l := by
    rw [hm1]
    apply matchEntries_roundtrip hnd l used0 hu0l _ hndl
    intro i hi
    exact ⟨by rw [hkl]; exact hmeml i hi, usedAt_replicate_false _ _⟩
  have husedm1 : ∀ i, usedAt m1.1 i = true ↔ i ∈ l := by
    intro i
    rw [s14 i, usedAt_replicate_false, hm1snd]
    simp
  set m2 := matchEntries keys (r.map (fun i => keyAt keys i)) m1.1 with hm2
  obtain ⟨_, _, _, s24⟩ := matchEntries_spec keys (r.map (fun i => keyAt keys i)) m1.1
    (by rw [s11])
  rw [← hm2] at s24
  have hm2snd : m2.2 = r := by
    rw [hm2]
    apply matchEntries_roundtrip hnd r m1.1 (by rw [s11]) _ hndr
    intro i hi
    refine ⟨by rw [hkl]; exact hmemr i hi, ?_⟩
    rcases Bool.eq_false_or_eq_true (usedAt m1.1 i) with h | h
    · exact absurd ((husedm1 i).mp h) (fun hl => hdisj hl hi)
    · exact h
  have husedm2 : ∀ i, usedAt m2.1 i = true ↔ (i ∈ l ∨ i ∈ r) := by
    intro i
    rw [s24 i, husedm1, hm2snd]
  rw [hm1snd, hm2snd]
  have hne : ¬(l.isEmpty && r.isEmpty) = true := by
    intro hc
    rw [Bool.and_eq_true, List.isEmpty_iff, List.isEmpty_iff] at hc
    have : (l ++ r) = [] := by rw [hc.1, hc.2]; rfl
    rw [this] at hperm
    have hn0 : apps.length = 0 := by
      have := hperm.length_eq
      simpa using this.symm
    exact he (List.length_eq_zero.mp hn0)
  rw [if_neg hne]
  have hfilter : (List.range apps.length).filter (fun i => !(usedAt m2.1 i)) = [] := by
    rw [List.filter_eq_nil_iff]
    intro i hi
    rw [List.mem_range] at hi
    have : i ∈ l ∨ i ∈ r := by
      have := hperm.mem_iff.mpr (by simpa using hi)
      simpa using List.mem_append.mp this
    simp [((husedm2 i).mpr this)]
  rw [hfilter, List.append_nil]

/-- Witness for C5: two distinct pins, no persisted layout. -/
theorem reconcile_roundtrip_idempotent_witness :
    resolve_two_column_indices [(⟨"a", none, none⟩ : PinnedApp), ⟨"b", none, none⟩]
      (some (two_column_layout_from_split
        (reorder_pinned_apps_by_columns [⟨"a", none, none⟩, ⟨"b", none, none⟩]
          (resolve_two_column_indices [⟨"a", none, none⟩, ⟨"b", none, none⟩] none).1
          (resolve_two_column_indices [⟨"a", none, none⟩, ⟨"b", none, none⟩] none).2)
        (resolve_two_column_indices [⟨"a", none, none⟩, ⟨"b", none, none⟩] none).1.length)) =
    resolve_two_column_indices [⟨"a", none, none⟩, ⟨"b", none, none⟩] none :=
  reconcile_roundtrip_idempotent [⟨"a", none, none⟩, ⟨"b", none, none⟩] none (by decide)

/-! ## Window geometry controller. `f32` coordinates are modelled as `ℚ`. -/

/-- A 2-d point or extent (egui `Pos2` / `Vec2`) with `f32` modelled as `ℚ`. -/
structure V2 where
  x : ℚ
  y : ℚ
deriving DecidableEq, Repr

/-- Rust `f32::clamp`: below `lo` gives `lo`, above `hi` gives `hi` (every
call site below satisfies the `lo ≤ hi` precondition of the source). -/
def rclamp (v lo hi : ℚ) : ℚ :=
  if v < lo then lo else if hi < v then hi else v

/-- `WINDOW_WIDTH` (app.rs line 17). -/
def WINDOW_WIDTH : ℚ := 320

/-- `WINDOW_HEIGHT` (app.rs line 18). -/
def WINDOW_HEIGHT : ℚ := 640

/-- `MIN_WINDOW_WIDTH` (app.rs line 19). -/
def MIN_WINDOW_WIDTH : ℚ := 260

/-- `MIN_WINDOW_HEIGHT` (app.rs line 20). -/
def MIN_WINDOW_HEIGHT : ℚ := 380

/-- `HEADER_HEIGHT` (style.rs line 4). -/
def HEADER_HEIGHT : ℚ := 28

/-- `MIN_VISIBLE_WIDTH` (ui.rs line 22). -/
def MIN_VISIBLE_WIDTH : ℚ := 72

/-- `sanitize_window_size` (app.rs lines 211-223). The `is_finite` fallback
branches are vacuous in the `ℚ` model (every rational is finite), leaving
the two lower bounds. -/
def sanitize_window_size (size : V2) : V2 :=
  ⟨max size.x MIN_WINDOW_WIDTH, max size.y MIN_WINDOW_HEIGHT⟩

/-- `clamp_window_origin` (ui.rs lines 1540-1547). -/
def clamp_window_origin (pos size monitor_size : V2) : V2 :=
  let min_x := MIN_VISIBLE_WIDTH - size.x
  let max_x := max (monitor_size.x - MIN_VISIBLE_WIDTH) min_x
  let min_y : ℚ := 0
  let max_y := max (monitor_size.y - HEADER_HEIGHT) min_y
  ⟨rclamp pos.x min_x max_x, rclamp pos.y min_y max_y⟩

/-- `ResizeEdge` (app.rs lines 23-30). -/
inductive ResizeEdge
  | Left
  | Right
  | Bottom
  | BottomLeft
  | BottomRight
deriving DecidableEq, Repr

/-- `ResizeDragState` (app.rs lines 32-38). -/
structure ResizeDragState where
  edge : ResizeEdge
  start_window_pos : V2
  start_window_size : V2
  start_global_mouse : V2
deriving DecidableEq, Repr

/-- `apply_resize_delta` (ui.rs lines 648-700); the monitor size read from
the platform is a parameter. Returns (new position, new size). -/
def apply_resize_delta (monitor_size : Option V2) (state : ResizeDragState)
    (delta : V2) : V2 × V2 :=
  let max_size :=
    match monitor_size with
    | some size =>
      V2.mk (max (size.x - 8) MIN_WINDOW_WIDTH) (max (size.y - 8) MIN_WINDOW_HEIGHT)
    | none => ⟨4096, 4096⟩
  let clamp_width := fun (w : ℚ) => rclamp w MIN_WINDOW_WIDTH max_size.x
  let clamp_height := fun (h : ℚ) => rclamp h MIN_WINDOW_HEIGHT max_size.y
  let ps :=
    match state.edge with
    | .Left =>
      let new_width := clamp_width (state.start_window_size.x - delta.x)
      ((⟨state.start_window_pos.x + (state.start_window_size.x - new_width),
         state.start_window_pos.y⟩ : V2),
       (⟨new_width, state.start_window_size.y⟩ : V2))
    | .Right =>
      (state.start_window_pos,
       (⟨clamp_width (state.start_window_size.x + delta.x),
         state.start_window_size.y⟩ : V2))
    | .Bottom =>
      (state.start_window_pos,
       (⟨state.start_window_size.x,
         clamp_height (state.start_window_size.y + delta.y)⟩ : V2))
    | .BottomLeft =>
      let new_width := clamp_width (state.start_window_size.x - delta.x)
      ((⟨state.start_window_pos.x + (state.start_window_size.x - new_width),
         state.start_window_pos.y⟩ : V2),
       (⟨new_width, clamp_height (state.start_window_size.y + delta.y)⟩ : V2))
    | .BottomRight =>
      (state.start_window_pos,
       (⟨clamp_width (state.start_window_size.x + delta.x),
         clamp_height (state.start_window_size.y + delta.y)⟩ : V2))
  let size := sanitize_window_size ps.2
  let pos :=
    match monitor_size with
    | some m => clamp_window_origin ps.1 size m
    | none => ps.1
  (pos, size)

/-- Whether the edge adjusts the window width (ui.rs lines 670-692: all
edges except `Bottom`). -/
def edgeAdjustsWidth : ResizeEdge → Bool
  | .Bottom => false
  | _ => true

/-- Whether the edge adjusts the window height (ui.rs lines 670-692:
`Bottom`, `BottomLeft`, `BottomRight`). -/
def edgeAdjustsHeight : ResizeEdge → Bool
  | .Bottom => true
  | .BottomLeft => true
  | .BottomRight => true
  | _ => false

lemma le_rclamp {v lo hi : ℚ} (h : lo ≤ hi) : lo ≤ rclamp v lo hi := by
  unfold rclamp
  split_ifs with h1 h2
  · exact le_refl lo
  · exact h
  · linarith

lemma rclamp_le {v lo hi : ℚ} (h : lo ≤ hi) : rclamp v lo hi ≤ hi := by
  unfold rclamp
  split_ifs with h1 h2
  · exact h
  · exact le_refl hi
  · linarith

lemma rclamp_eq_self {v lo hi : ℚ} (h1 : lo ≤ v) (h2 : v ≤ hi) :
    rclamp v lo hi = v := by
  unfold rclamp
  split_ifs with ha hb
  · linarith
  · linarith
  · rfl

/-- Claim C6 counterexample: on a 100 px wide monitor the clamped
width floor (260) exceeds `monitor_width - margin` (92), and a resize along
the right edge yields width 260. -/
theorem apply_resize_delta_small_monitor_counterexample :
    ¬ ((apply_resize_delta (some ⟨100, 100⟩)
        ⟨.Right, ⟨0, 0⟩, ⟨300, 5000⟩, ⟨0, 0⟩⟩ ⟨1000, 0⟩).2.x ≤ 100 - 8) := by
  have h : (apply_resize_delta (some ⟨100, 100⟩)
      ⟨.Right, ⟨0, 0⟩, ⟨300, 5000⟩, ⟨0, 0⟩⟩ ⟨1000, 0⟩).2 =
      sanitize_window_size ⟨rclamp (300 + 1000) MIN_WINDOW_WIDTH
        (max ((100 : ℚ) - 8) MIN_WINDOW_WIDTH), 5000⟩ := rfl
  rw [h]
  norm_num [sanitize_window_size, rclamp, MIN_WINDOW_WIDTH, MIN_WINDOW_HEIGHT]

/-- Claim C6, amended: after any resize with a known monitor size, width
and height never drop below the minima (260/380), and each dimension the
active edge adjusts is clamped above by `max (monitor - margin) min` with
margin 8; the claim's plain bound `monitor - margin` holds exactly when the
monitor is large enough that `monitor - margin ≥ min`, and a dimension the
edge does not adjust keeps its anchor value instead of being re-clamped. -/
theorem apply_resize_delta_bounds (state : ResizeDragState) (delta : V2) (m : V2) :
    (MIN_WINDOW_WIDTH ≤ (apply_resize_delta (some m) state delta).2.x) ∧
    (MIN_WINDOW_HEIGHT ≤ (apply_resize_delta (some m) state delta).2.y) ∧
    (edgeAdjustsWidth state.edge = true →
      (apply_resize_delta (some m) state delta).2.x ≤ max (m.x - 8) MIN_WINDOW_WIDTH) ∧
    (edgeAdjustsHeight state.edge = true →
      (apply_resize_delta (some m) state delta).2.y ≤ max (m.y - 8) MIN_WINDOW_HEIGHT) := by
  have hwhi : ∀ w, rclamp w MIN_WINDOW_WIDTH (max (m.x - 8) MIN_WINDOW_WIDTH) ≤
      max (m.x - 8) MIN_WINDOW_WIDTH :=
    fun w => rclamp_le (le_max_right _ _)
  have hhhi : ∀ h, rclamp h MIN_WINDOW_HEIGHT (max (m.y - 8) MIN_WINDOW_HEIGHT) ≤
      max (m.y - 8) MIN_WINDOW_HEIGHT :=
    fun h => rclamp_le (le_max_right _ _)
  obtain ⟨edge, sp, ss, sg⟩ := state
  cases edge with
  | Left =>
    have h2 : (apply_resize_delta (some m) ⟨.Left, sp, ss, sg⟩ delta).2 =
        sanitize_window_size ⟨rclamp (ss.x - delta.x) MIN_WINDOW_WIDTH
          (max (m.x - 8) MIN_WINDOW_WIDTH), ss.y⟩ := rfl
    refine ⟨?_, ?_, ?_, ?_⟩
    · rw [h2]
      exact le_max_right _ _
    · rw [h2]
      exact le_max_right _ _
    · intro _
      rw [h2]
      simp only [sanitize_window_size]
      exact max_le (hwhi _) (le_max_right _ _)
    · intro h
      simp [edgeAdjustsHeight] at h
  | Right =>
    have h2 : (apply_resize_delta (some m) ⟨.Right, sp, ss, sg⟩ delta).2 =
        sanitize_window_size ⟨rclamp (ss.x + delta.x) MIN_WINDOW_WIDTH
          (max (m.x - 8) MIN_WINDOW_WIDTH), ss.y⟩ := rfl
    refine ⟨?_, ?_, ?_, ?_⟩
    · rw [h2]
      exact le_max_right _ _
    · rw [h2]
      exact le_max_right _ _
    · intro _
      rw [h2]
      simp only [sanitize_window_size]
      exact max_le (hwhi _) (le_max_right _ _)
    · intro h
      simp [edgeAdjustsHeight] at h
  | Bottom =>
    have h2 : (apply_resize_delta (some m) ⟨.Bottom, sp, ss, sg⟩ delta).2 =
        sanitize_window_size ⟨ss.x, rclamp (ss.y + delta.y) MIN_WINDOW_HEIGHT
          (max (m.y - 8) MIN_WINDOW_HEIGHT)⟩ := rfl
    refine ⟨?_, ?_, ?_, ?_⟩
    · rw [h2]
      exact le_max_right _ _
    · rw [h2]
      exact le_max_right _ _
    · intro h
      simp [edgeAdjustsWidth] at h
    · intro _
      rw [h2]
      simp only [sanitize_window_size]
      exact max_le (hhhi _) (le_max_right _ _)
  | BottomLeft =>
    have h2 : (apply_resize_delta (some m) ⟨.BottomLeft, sp, ss, sg⟩ delta).2 =
        sanitize_window_size ⟨rclamp (ss.x - delta.x) MIN_WINDOW_WIDTH
          (max (m.x - 8) MIN_WINDOW_WIDTH),
          rclamp (ss.y + delta.y) MIN_WINDOW_HEIGHT
            (max (m.y - 8) MIN_WINDOW_HEIGHT)⟩ := rfl
    refine ⟨?_, ?_, ?_, ?_⟩
    · rw [h2]
      exact le_max_right _ _
    · rw [h2]
      exact le_max_right _ _
    · intro _
      rw [h2]
      simp only [sanitize_window_size]
      exact max_le (hwhi _) (le_max_right _ _)
    · intro _
      rw [h2]
      simp only [sanitize_window_size]
      exact max_le (hhhi _) (le_max_right _ _)
  | BottomRight =>
    have h2 : (apply_resize_delta (some m) ⟨.BottomRight, sp, ss, sg⟩ delta).2 =
        sanitize_window_size ⟨rclamp (ss.x + delta.x) MIN_WINDOW_WIDTH
          (max (m.x - 8) MIN_WINDOW_WIDTH),
          rclamp (ss.y + delta.y) MIN_WINDOW_HEIGHT
            (max (m.y - 8) MIN_WINDOW_HEIGHT)⟩ := rfl
    refine ⟨?_, ?_, ?_, ?_⟩
    · rw [h2]
      exact le_max_right _ _
    · rw [h2]
      exact le_max_right _ _
    · intro _
      rw [h2]
      simp only [sanitize_window_size]
      exact max_le (hwhi _) (le_max_right _ _)
    · intro _
      rw [h2]
      simp only [sanitize_window_size]
      exact max_le (hhhi _) (le_max_right _ _)

/-- Witness for C6 at a concrete resize. -/
theorem apply_resize_delta_bounds_witness :
    edgeAdjustsWidth ResizeEdge.Right = true ∧
    (apply_resize_delta (some ⟨1920, 1080⟩)
        ⟨.Right, ⟨0, 0⟩, ⟨320, 640⟩, ⟨0, 0⟩⟩ ⟨10000, 0⟩).2.x ≤
      max ((1920 : ℚ) - 8) MIN_WINDOW_WIDTH :=
  ⟨rfl, (apply_resize_delta_bounds ⟨.Right, ⟨0, 0⟩, ⟨320, 640⟩, ⟨0, 0⟩⟩
      ⟨10000, 0⟩ ⟨1920, 1080⟩).2.2.1 rfl⟩

/-- The release branch of `handle_window_drag` (ui.rs lines 443-467):
starting from the current window origin, snap each axis to a monitor edge
within the 48 px threshold (the left/top snap is tested before the
right/bottom snap on the same axis), then clamp to the visibility
constraint. Without a monitor size the origin is committed as is. -/
def commit_window_move (monitor_size : Option V2) (window_pos panel_size : V2) : V2 :=
  let window_size := sanitize_window_size panel_size
  match monitor_size with
  | none => window_pos
  | some m =>
    let x1 := if |window_pos.x| < 48 then (0 : ℚ)
      else if |window_pos.x + window_size.x - m.x| < 48 then m.x - window_size.x
      else window_pos.x
    let y1 := if |window_pos.y| < 48 then (0 : ℚ)
      else if |window_pos.y + window_size.y - m.y| < 48 then m.y - window_size.y
      else window_pos.y
    clamp_window_origin ⟨x1, y1⟩ window_size m

/-- Claim C7 counterexample: releasing at x = 30 on a 320 px monitor
with a 270 px wide window puts the right edge within 48 px of the right
monitor edge, but the left snap fires first and commits x = 0, so the right
edge does not meet the monitor edge. -/
theorem commit_window_move_left_snap_precedence_counterexample :
    |(30 : ℚ) + (sanitize_window_size ⟨270, 400⟩).x - 320| < 48 ∧
    (commit_window_move (some ⟨320, 1000⟩) ⟨30, 100⟩ ⟨270, 400⟩).x +
      (sanitize_window_size ⟨270, 400⟩).x ≠ 320 := by
  constructor
  · norm_num [sanitize_window_size, MIN_WINDOW_WIDTH]
  · have h : commit_window_move (some ⟨320, 1000⟩) ⟨30, 100⟩ ⟨270, 400⟩ =
        clamp_window_origin
          ⟨if |(30 : ℚ)| < 48 then (0 : ℚ)
            else if |(30 : ℚ) + (sanitize_window_size ⟨270, 400⟩).x - 320| < 48 then
              320 - (sanitize_window_size ⟨270, 400⟩).x
            else 30,
           if |(100 : ℚ)| < 48 then (0 : ℚ)
            else if |(100 : ℚ) + (sanitize_window_size ⟨270, 400⟩).y - 1000| < 48 then
              1000 - (sanitize_window_size ⟨270, 400⟩).y
            else 100⟩
          (sanitize_window_size ⟨270, 400⟩) ⟨320, 1000⟩ := rfl
    rw [h]
    norm_num [sanitize_window_size, clamp_window_origin, rclamp,
      MIN_WINDOW_WIDTH, MIN_WINDOW_HEIGHT, MIN_VISIBLE_WIDTH, HEADER_HEIGHT]

/-- Claim C7, amended: a move released with the window's right edge within
48 px of the right monitor edge commits `position.x + size.x = monitor
width`, provided the left edge is not itself within the 48 px snap range
(the left snap is tested first and wins) and the monitor is at least 72 px
wide (so the visibility clamp keeps the snapped position). -/
theorem commit_window_move_right_snap (m window_pos panel_size : V2)
    (hnl : ¬ |window_pos.x| < 48)
    (hnr : |window_pos.x + (sanitize_window_size panel_size).x - m.x| < 48)
    (hm : 72 ≤ m.x) :
    (commit_window_move (some m) window_pos panel_size).x +
      (sanitize_window_size panel_size).x = m.x := by
  set ws := sanitize_window_size panel_size with hws
  have hwsx : MIN_WINDOW_WIDTH ≤ ws.x := le_max_right _ _
  have hred : (commit_window_move (some m) window_pos panel_size).x =
      rclamp (if |window_pos.x| < 48 then (0 : ℚ)
        else if |window_pos.x + ws.x - m.x| < 48 then m.x - ws.x
        else window_pos.x)
        (MIN_VISIBLE_WIDTH - ws.x)
        (max (m.x - MIN_VISIBLE_WIDTH) (MIN_VISIBLE_WIDTH - ws.x)) := rfl
  rw [hred, if_neg hnl, if_pos hnr]
  have h260 : (260 : ℚ) ≤ ws.x := by
    have := hwsx
    simpa [MIN_WINDOW_WIDTH] using this
  have hrc : rclamp (m.x - ws.x) (MIN_VISIBLE_WIDTH - ws.x)
      (max (m.x - MIN_VISIBLE_WIDTH) (MIN_VISIBLE_WIDTH - ws.x)) = m.x - ws.x := by
    apply rclamp_eq_self
    · simp only [MIN_VISIBLE_WIDTH]
      linarith
    · apply le_max_of_le_left
      simp only [MIN_VISIBLE_WIDTH]
      linarith
  rw [hrc]
  ring

/-- Witness for C7 at a concrete release position. -/
theorem commit_window_move_right_snap_witness :
    (commit_window_move (some ⟨1920, 1080⟩) ⟨1600, 100⟩ ⟨300, 400⟩).x +
      (sanitize_window_size ⟨300, 400⟩).x = 1920 :=
  commit_window_move_right_snap ⟨1920, 1080⟩ ⟨1600, 100⟩ ⟨300, 400⟩
    (by norm_num)
    (by norm_num [sanitize_window_size, MIN_WINDOW_WIDTH])
    (by norm_num)

/-- `ensure_window_visible` (ui.rs lines 399-421) projected onto its
persistence effect: the geometry save request it issues this frame (`none`
when it saves nothing). It runs only when neither window drag nor resize is
active, and saves exactly when the visibility clamp moves the origin by
more than half a pixel on either axis. -/
def ensure_window_visible_save (is_dragging_window resize_active : Bool)
    (window_pos panel_size : V2) (monitor_size : Option V2) :
    Option (V2 × V2) :=
  if is_dragging_window || resize_active then none
  else
    match monitor_size with
    | none => none
    | some m =>
      let window_size := sanitize_window_size panel_size
      let clamped := clamp_window_origin window_pos window_size m
      if (0.5 : ℚ) < |clamped.x - window_pos.x| ∨
          (0.5 : ℚ) < |clamped.y - window_pos.y| then
        some (clamped, window_size)
      else none

/-- The save issued by the release branch of `update_resize_drag`
(ui.rs lines 613-629): the realized window rectangle read back from the
platform, re-clamped for visibility when a monitor size is known. -/
def update_resize_drag_save (monitor_size : Option V2)
    (realized_pos realized_size : V2) : V2 × V2 :=
  (match monitor_size with
   | some m => clamp_window_origin realized_pos (sanitize_window_size realized_size) m
   | none => realized_pos,
   realized_size)

/-- The geometry save requests one frame can issue, in frame order
(ui.rs lines 347-350): the opportunistic visibility clamp inside
`ensure_window_visible`, the move-release save inside `handle_window_drag`
(lines 443-467), and the resize-release save inside `update_resize_drag`
(lines 613-629). `released` is whether the primary button was released this
frame. -/
def frame_geometry_saves (is_dragging_window resize_active released : Bool)
    (window_pos panel_size : V2) (monitor_size : Option V2)
    (realized_pos realized_size : V2) : List (V2 × V2) :=
  (ensure_window_visible_save is_dragging_window resize_active window_pos
      panel_size monitor_size).toList
  ++ (if is_dragging_window && released then
        [(commit_window_move monitor_size window_pos panel_size,
          sanitize_window_size panel_size)]
      else [])
  ++ (if resize_active && released then
        [update_resize_drag_save monitor_size realized_pos realized_size]
      else [])

/-- Claim C9 counterexample: a frame with no active interaction and
no release still issues a geometry save when the visibility clamp finds the
window far off screen. -/
theorem ensure_window_visible_saves_without_interaction :
    frame_geometry_saves false false false ⟨-10000, 0⟩ ⟨320, 640⟩
      (some ⟨1920, 1080⟩) ⟨0, 0⟩ ⟨320, 640⟩ ≠ [] := by
  have h : ensure_window_visible_save false false ⟨-10000, 0⟩ ⟨320, 640⟩
      (some ⟨1920, 1080⟩) =
      some (clamp_window_origin ⟨-10000, 0⟩ (sanitize_window_size ⟨320, 640⟩)
        ⟨1920, 1080⟩, sanitize_window_size ⟨320, 640⟩) := by
    rw [ensure_window_visible_save]
    norm_num [clamp_window_origin, sanitize_window_size, rclamp,
      MIN_WINDOW_WIDTH, MIN_WINDOW_HEIGHT, MIN_VISIBLE_WIDTH, HEADER_HEIGHT]
  rw [frame_geometry_saves, h]
  simp

/-- Claim C9, amended: a frame issues a window-geometry save only when a
move or resize interaction ends this frame (primary button released) or
when the opportunistic visibility clamp of `ensure_window_visible` corrects
the window origin by more than half a pixel while no interaction is
active. -/
theorem frame_saves_only_at_release_or_clamp
    (is_dragging_window resize_active released : Bool)
    (window_pos panel_size : V2) (monitor_size : Option V2)
    (realized_pos realized_size : V2)
    (h : frame_geometry_saves is_dragging_window resize_active released
        window_pos panel_size monitor_size realized_pos realized_size ≠ []) :
    released = true ∨
      ensure_window_visible_save is_dragging_window resize_active window_pos
        panel_size monitor_size ≠ none := by
  by_contra hc
  push_neg at hc
  obtain ⟨hrel, hens⟩ := hc
  apply h
  have hrel' : released = false := by
    cases released
    · rfl
    · exact absurd rfl hrel
  rw [frame_geometry_saves, hens, hrel']
  simp

/-- Witness for C9 at a concrete saving frame. -/
theorem frame_saves_only_at_release_or_clamp_witness :
    (false : Bool) = true ∨
      ensure_window_visible_save false false ⟨-10000, 0⟩ ⟨320, 640⟩
        (some ⟨1920, 1080⟩) ≠ none :=
  frame_saves_only_at_release_or_clamp false false false ⟨-10000, 0⟩ ⟨320, 640⟩
    (some ⟨1920, 1080⟩) ⟨0, 0⟩ ⟨320, 640⟩
    (by
      have h : ensure_window_visible_save false false ⟨-10000, 0⟩ ⟨320, 640⟩
          (some ⟨1920, 1080⟩) =
          some (clamp_window_origin ⟨-10000, 0⟩ (sanitize_window_size ⟨320, 640⟩)
            ⟨1920, 1080⟩, sanitize_window_size ⟨320, 640⟩) := by
        rw [ensure_window_visible_save]
        norm_num [clamp_window_origin, sanitize_window_size, rclamp,
          MIN_WINDOW_WIDTH, MIN_WINDOW_HEIGHT, MIN_VISIBLE_WIDTH, HEADER_HEIGHT]
      rw [frame_geometry_saves, h]
      simp)

/-- `REORDER_HOLD_MS` (ui.rs line 18), in milliseconds. -/
def REORDER_HOLD_MS : ℚ := 260

/-- `REORDER_MOVE_TOLERANCE` (ui.rs line 19), in pixels. -/
def REORDER_MOVE_TOLERANCE : ℚ := 18

/-- Squared distance between two points. The source compares
`p.distance(start_pos) > tolerance`; both sides are nonnegative, so the
squared comparison is equivalent and keeps the model in `ℚ`. -/
def distSq (p q : V2) : ℚ :=
  (p.x - q.x) ^ 2 + (p.y - q.y) ^ 2

/-- The gesture fields of `MyApp` consulted by the press-candidate update
(app.rs lines 45, 59-63): the live collection, the candidate
(index, press start time, press start position), the active drag index and
its target slot. -/
structure GestureState where
  pinned_apps : List PinnedApp
  press_candidate : Option (Nat × ℚ × V2)
  dragging_app : Option Nat
  drag_target : Option Nat
deriving DecidableEq, Repr

/-- One frame of pointer input: current time in milliseconds, whether the
primary button is down, and the hover position when known. -/
structure FrameInput where
  now : ℚ
  down : Bool
  pos : Option V2
deriving DecidableEq, Repr

/-- The press-candidate update of `draw_pinned_list` (ui.rs lines 940-957),
one frame: button released → discard; observed position beyond the move
tolerance → discard; held to the threshold without excess movement →
activate the drag with the target clamped to the collection length. -/
def update_press_candidate (s : GestureState) (f : FrameInput) : GestureState :=
  match s.press_candidate with
  | none => s
  | some (idx, t0, p0) =>
    if f.down = false then { s with press_candidate := none }
    else
      match f.pos with
      | none => s
      | some p =>
        if REORDER_MOVE_TOLERANCE ^ 2 < distSq p p0 then
          { s with press_candidate := none }
        else if REORDER_HOLD_MS ≤ f.now - t0 then
          { s with dragging_app := some idx,
                   drag_target := some (min idx s.pinned_apps.length),
                   press_candidate := none }
        else s

/-- The per-frame update folded over a trace of frames. -/
def run_press_frames (s : GestureState) (fs : List FrameInput) : GestureState :=
  fs.foldl update_press_candidate s

/-- A frame under which a pending candidate (start time `t0`, start point
`p0`) survives without activating: the button stays down and any observed
position is within tolerance with the hold threshold not yet reached. -/
def candidateSurvives (t0 : ℚ) (p0 : V2) (g : FrameInput) : Prop :=
  g.down = true ∧ ∀ q, g.pos = some q →
    distSq q p0 ≤ REORDER_MOVE_TOLERANCE ^ 2 ∧ g.now - t0 < REORDER_HOLD_MS

/-- A frame that activates a pending candidate: button down, position
observed within tolerance, hold threshold reached. -/
def activatesAt (t0 : ℚ) (p0 : V2) (f : FrameInput) : Prop :=
  f.down = true ∧ ∃ p, f.pos = some p ∧
    distSq p p0 ≤ REORDER_MOVE_TOLERANCE ^ 2 ∧ REORDER_HOLD_MS ≤ f.now - t0

lemma run_press_frames_id : ∀ (fs : List FrameInput) (s : GestureState),
    s.press_candidate = none → run_press_frames s fs = s := by
  intro fs
  induction fs with
  | nil => intro s _; rfl
  | cons f fs ih =>
    intro s hc
    have hstep : update_press_candidate s f = s := by
      rw [update_press_candidate, hc]
    show run_press_frames (update_press_candidate s f) fs = s
    rw [hstep]
    exact ih s hc

lemma no_decomposition_of_killer {t0 : ℚ} {p0 : V2} {f : FrameInput}
    {fs : List FrameInput} (hnosurv : ¬ candidateSurvives t0 p0 f)
    (hnact : ¬ activatesAt t0 p0 f) :
    ¬ ∃ pre g post, f :: fs = pre ++ g :: post ∧
        (∀ x ∈ pre, candidateSurvives t0 p0 x) ∧ activatesAt t0 p0 g := by
  rintro ⟨pre, g, post, heq, hpre, hact⟩
  cases pre with
  | nil =>
    rw [List.nil_append] at heq
    cases heq
    exact hnact hact
  | cons a pre' =>
    rw [List.cons_append] at heq
    have hfa : f = a := (List.cons.injEq _ _ _ _ ▸ heq).1
    exact hnosurv (hfa ▸ hpre a (List.mem_cons_self _ _))

lemma decomposition_shift {t0 : ℚ} {p0 : V2} {f : FrameInput}
    {fs : List FrameInput} (hs : candidateSurvives t0 p0 f)
    (hna : ¬ activatesAt t0 p0 f) :
    (∃ pre g post, f :: fs = pre ++ g :: post ∧
        (∀ x ∈ pre, candidateSurvives t0 p0 x) ∧ activatesAt t0 p0 g) ↔
    (∃ pre g post, fs = pre ++ g :: post ∧
        (∀ x ∈ pre, candidateSurvives t0 p0 x) ∧ activatesAt t0 p0 g) := by
  constructor
  · rintro ⟨pre, g, post, heq, hpre, hact⟩
    cases pre with
    | nil =>
      rw [List.nil_append] at heq
      cases heq
      exact absurd hact hna
    | cons a pre' =>
      rw [List.cons_append] at heq
      have h1 : f = a := (List.cons.injEq _ _ _ _ ▸ heq).1
      have h2 : fs = pre' ++ g :: post := (List.cons.injEq _ _ _ _ ▸ heq).2
      exact ⟨pre', g, post, h2, fun x hx => hpre x (List.mem_cons_of_mem _ hx), hact⟩
  · rintro ⟨pre, g, post, heq, hpre, hact⟩
    refine ⟨f :: pre, g, post, by rw [heq, List.cons_append], ?_, hact⟩
    intro x hx
    rcases List.mem_cons.mp hx with rfl | hx'
    · exact hs
    · exact hpre x hx'

/-- Claim C8: over any frame trace, a press candidate becomes an active
drag exactly when some frame keeps the button down, observes the pointer
within the 18 px tolerance and reaches the 260 ms hold threshold, and every
earlier frame kept the button down with any observed position within
tolerance before the threshold (a release or an out-of-tolerance move
discards the candidate and no drag ever starts); the activated drag carries
the candidate's own index, and this update never modifies the collection. -/
theorem press_candidate_drag_gate (s : GestureState) (idx : Nat) (t0 : ℚ)
    (p0 : V2) (fs : List FrameInput)
    (hc : s.press_candidate = some (idx, t0, p0))
    (hd : s.dragging_app = none) :
    (run_press_frames s fs).pinned_apps = s.pinned_apps ∧
    ((run_press_frames s fs).dragging_app ≠ none ↔
      ∃ pre f post, fs = pre ++ f :: post ∧
        (∀ g ∈ pre, candidateSurvives t0 p0 g) ∧ activatesAt t0 p0 f) ∧
    ((run_press_frames s fs).dragging_app ≠ none →
      (run_press_frames s fs).dragging_app = some idx ∧
      (run_press_frames s fs).drag_target =
        some (min idx s.pinned_apps.length)) := by
  induction fs with
  | nil =>
    refine ⟨rfl, ?_, ?_⟩
    · constructor
      · intro habs
        exact absurd hd habs
      · rintro ⟨pre, f, post, heq, -, -⟩
        cases pre <;> simp at heq
    · intro habs
      exact absurd hd habs
  | cons f fs ih =>
    have hrun : run_press_frames s (f :: fs) =
        run_press_frames (update_press_candidate s f) fs := rfl
    by_cases hdown : f.down = false
    · have hstep : update_press_candidate s f = { s with press_candidate := none } := by
        simp only [update_press_candidate, hc]
        rw [if_pos hdown]
      have hafter : run_press_frames (update_press_candidate s f) fs =
          { s with press_candidate := none } := by
        rw [hstep]
        exact run_press_frames_id fs _ rfl
      have hnosurv : ¬ candidateSurvives t0 p0 f := by
        rintro ⟨h1, -⟩
        rw [hdown] at h1
        simp at h1
      have hnact : ¬ activatesAt t0 p0 f := by
        rintro ⟨h1, -⟩
        rw [hdown] at h1
        simp at h1
      rw [hrun, hafter]
      refine ⟨rfl, ?_, ?_⟩
      · constructor
        · intro habs
          exact absurd hd habs
        · intro hdec
          exact absurd hdec (no_decomposition_of_killer hnosurv hnact)
      · intro habs
        exact absurd hd habs
    · have hdown' : f.down = true := by
        cases hv : f.down
        · exact absurd hv hdown
        · rfl
      cases hpos : f.pos with
      | none =>
        have hstep : update_press_candidate s f = s := by
          simp only [update_press_candidate, hc, hpos]
          rw [if_neg hdown]
        have hsurv : candidateSurvives t0 p0 f := by
          refine ⟨hdown', ?_⟩
          intro q hq
          rw [hpos] at hq
          exact absurd hq (by simp)
        have hnact : ¬ activatesAt t0 p0 f := by
          rintro ⟨-, p, hp, -, -⟩
          rw [hpos] at hp
          exact absurd hp (by simp)
        rw [hrun, hstep]
        obtain ⟨ih1, ih2, ih3⟩ := ih
        exact ⟨ih1, by rw [ih2]; exact (decomposition_shift hsurv hnact).symm, ih3⟩
      | some p =>
        by_cases htol : REORDER_MOVE_TOLERANCE ^ 2 < distSq p p0
        · have hstep : update_press_candidate s f = { s with press_candidate := none } := by
            simp only [update_press_candidate, hc, hpos]
            rw [if_neg hdown, if_pos htol]
          have hafter : run_press_frames (update_press_candidate s f) fs =
              { s with press_candidate := none } := by
            rw [hstep]
            exact run_press_frames_id fs _ rfl
          have hnosurv : ¬ candidateSurvives t0 p0 f := by
            rintro ⟨-, hall⟩
            have := (hall p (by rw [hpos])).1
            linarith
          have hnact : ¬ activatesAt t0 p0 f := by
            rintro ⟨-, q, hq, hle, -⟩
            rw [hpos] at hq
            cases hq
            linarith
          rw [hrun, hafter]
          refine ⟨rfl, ?_, ?_⟩
          · constructor
            · intro habs
              exact absurd hd habs
            · intro hdec
              exact absurd hdec (no_decomposition_of_killer hnosurv hnact)
          · intro habs
            exact absurd hd habs
        · by_cases hthr : REORDER_HOLD_MS ≤ f.now - t0
          · have hstep : update_press_candidate s f =
                { s with dragging_app := some idx,
                         drag_target := some (min idx s.pinned_apps.length),
                         press_candidate := none } := by
              simp only [update_press_candidate, hc, hpos]
              rw [if_neg hdown, if_neg htol, if_pos hthr]
            have hafter : run_press_frames (update_press_candidate s f) fs =
                { s with dragging_app := some idx,
                         drag_target := some (min idx s.pinned_apps.length),
                         press_candidate := none } := by
              rw [hstep]
              exact run_press_frames_id fs _ rfl
            have hact : activatesAt t0 p0 f :=
              ⟨hdown', p, hpos, le_of_not_lt htol, hthr⟩
            rw [hrun, hafter]
            refine ⟨rfl, ?_, ?_⟩
            · constructor
              · intro _
                exact ⟨[], f, fs, rfl, by intro g hg; exact absurd hg (by simp), hact⟩
              · intro _
                simp
            · intro _
              exact ⟨rfl, rfl⟩
          · have hstep : update_press_candidate s f = s := by
              simp only [update_press_candidate, hc, hpos]
              rw [if_neg hdown, if_neg htol, if_neg hthr]
            have hsurv : candidateSurvives t0 p0 f := by
              refine ⟨hdown', ?_⟩
              intro q hq
              rw [hpos] at hq
              cases hq
              exact ⟨le_of_not_lt htol, lt_of_not_le hthr⟩
            have hnact : ¬ activatesAt t0 p0 f := by
              rintro ⟨-, q, hq, -, hthr'⟩
              rw [hpos] at hq
              cases hq
              exact hthr hthr'
            rw [hrun, hstep]
            obtain ⟨ih1, ih2, ih3⟩ := ih
            exact ⟨ih1, by rw [ih2]; exact (decomposition_shift hsurv hnact).symm, ih3⟩

/-- Witness for C8: one frame held past the threshold within tolerance. -/
theorem press_candidate_drag_gate_witness :
    (run_press_frames
        ⟨[⟨"a", none, none⟩], some (0, 0, ⟨0, 0⟩), none, none⟩
        [⟨300, true, some ⟨1, 1⟩⟩]).pinned_apps = [⟨"a", none, none⟩] :=
  (press_candidate_drag_gate
      ⟨[⟨"a", none, none⟩], some (0, 0, ⟨0, 0⟩), none, none⟩ 0 0 ⟨0, 0⟩
      [⟨300, true, some ⟨1, 1⟩⟩] rfl rfl).1

/-- Claim C10 counterexample: the collision pair exhibited in the claim does
not collide — path "a" with args "b|c" and no working dir keys to
"a|b|c|" (trailing empty working-dir segment), while path "a" with args "b"
and working dir "c" keys to "a|b|c". -/
theorem normalize_launch_key_claimed_example_fails :
    normalize_launch_key "a" (some "b|c") none ≠
      normalize_launch_key "a" (some "b") (some "c") := by
  decide

/-- Claim C10, amended: the identity key function is not injective, because
the three fields are joined with an unescaped separator — path "a|b" with no
args and no working dir produces the same key as path "a" with args "b|"
and no working dir, although the two triples are distinct. -/
theorem normalize_launch_key_not_injective :
    normalize_launch_key "a|b" none none =
      normalize_launch_key "a" (some "b|") none ∧
    ("a|b", (none : Option String), (none : Option String)) ≠
      ("a", some "b|", none) := by
  exact ⟨by decide, by decide⟩

end FloatDock
